import Mathlib

/-!
Shallow embedding of the Deduplicator program (src/main.rs, src/options.rs,
src/deduplicator.rs, src/similarity.rs).

Filesystem entries are modelled as records carrying the outcome of the
fallible accessors the code calls on them: `metadata` (entry.metadata(), an
io::Result), the two timestamps inside the metadata (meta.modified() /
meta.created(), io::Results as well), and `digest` (the outcome of
Deduplicator::digest, which returns None on any read failure).  Paths are
strings (only ever tested for equality); file names, which the program only
ever compares under its total order, are modelled as naturals; timestamps
are naturals.
-/

namespace Dedup

/-- Outcome of the two fallible timestamp accessors of fs::Metadata. -/
structure Meta where
  modified : Option Nat
  created : Option Nat
deriving DecidableEq

/-- A walkdir::DirEntry together with the outcomes of the fallible
operations the program performs on it. -/
structure Entry where
  path : String
  name : Nat
  metadata : Option Meta
  digest : Option Nat
deriving DecidableEq

instance : Inhabited Meta := ⟨⟨none, none⟩⟩

instance : Inhabited Entry := ⟨⟨"", 0, none, none⟩⟩

/-- options.rs: enum FileOrdering. -/
inductive FileOrdering
  | modified
  | created
  | name
deriving DecidableEq

/-- options.rs: enum Keep. -/
inductive Keep
  | first
  | last
deriving DecidableEq

/-- The metadata of an entry, defaulting when absent (only consulted under
hypotheses that guarantee presence). -/
def entryMeta (e : Entry) : Meta := e.metadata.getD default

/-- deduplicator.rs Deduplicator::map_with_metadata: pair each entry with
its metadata and silently drop the entries whose metadata read failed. -/
def mapWithMetadata (files : List Entry) : List (Meta × Entry) :=
  files.filterMap fun e => e.metadata.map fun m => (m, e)

/-- The comparison key used by Deduplicator::select for each ordering:
meta.modified().unwrap(), meta.created().unwrap(), or entry.file_name().
The `getD 0` defaults are only reachable when the corresponding unwrap
would have panicked; `select` aborts before sorting in that case. -/
def metaKeyLe (o : FileOrdering) (a b : Meta × Entry) : Prop :=
  match o with
  | .modified => a.1.modified.getD 0 ≤ b.1.modified.getD 0
  | .created => a.1.created.getD 0 ≤ b.1.created.getD 0
  | .name => a.2.name ≤ b.2.name

instance (o : FileOrdering) : DecidableRel (metaKeyLe o) := fun a b => by
  cases o <;> (unfold metaKeyLe; infer_instance)

instance (o : FileOrdering) : IsTotal (Meta × Entry) (metaKeyLe o) := by
  constructor
  intro a b
  cases o <;> (unfold metaKeyLe; exact le_total _ _)

instance (o : FileOrdering) : IsTrans (Meta × Entry) (metaKeyLe o) := by
  constructor
  intro a b c hab hbc
  cases o <;> (unfold metaKeyLe at *; exact le_trans hab hbc)

/-- The same ordering key read directly off an entry (well-defined whenever
the metadata and the needed timestamp are present). -/
def entryLe (o : FileOrdering) (a b : Entry) : Prop :=
  metaKeyLe o (entryMeta a, a) (entryMeta b, b)

instance (o : FileOrdering) : DecidableRel (entryLe o) := fun a b => by
  unfold entryLe; infer_instance

theorem entryLe_refl (o : FileOrdering) (a : Entry) : entryLe o a a := by
  cases o <;> (unfold entryLe metaKeyLe; exact le_refl _)

theorem entryLe_trans (o : FileOrdering) {a b c : Entry}
    (hab : entryLe o a b) (hbc : entryLe o b c) : entryLe o a c := by
  cases o <;> (unfold entryLe metaKeyLe at *; exact le_trans hab hbc)

instance (o : FileOrdering) : IsTotal Entry (entryLe o) := by
  constructor
  intro a b
  cases o <;> (unfold entryLe metaKeyLe; exact le_total _ _)

instance (o : FileOrdering) : IsTrans Entry (entryLe o) := by
  constructor
  intro a b c
  exact entryLe_trans o

/-- In `sort_by_cached_key`, the key closure runs `unwrap()` on the needed
timestamp of every element; this predicate says none of those unwraps
panics.  Name ordering reads no timestamp. -/
def timestampsOk (o : FileOrdering) (mapped : List (Meta × Entry)) : Bool :=
  match o with
  | .modified => mapped.all fun p => p.1.modified.isSome
  | .created => mapped.all fun p => p.1.created.isSome
  | .name => true

/-- The stable sort performed by `sort_by_cached_key` / `sort_by`. -/
def sortMapped (o : FileOrdering) (mapped : List (Meta × Entry)) :
    List (Meta × Entry) :=
  List.insertionSort (metaKeyLe o) mapped

/-- Result of Deduplicator::select.  `aborted` is a panicking unwrap or a
`remove(0)`/`pop().unwrap()` on an empty vector: the process dies. -/
inductive SelOutcome
  | ok (source : Entry) (dups : List Entry)
  | aborted
deriving DecidableEq

/-- deduplicator.rs Deduplicator::select: drop members whose metadata read
fails, sort the survivors by the configured key (panicking if a needed
timestamp is absent), then keep the head (keep=first) or the tail
(keep=last) as source and return the rest as duplicates. -/
def select (o : FileOrdering) (k : Keep) (files : List Entry) : SelOutcome :=
  let mapped := mapWithMetadata files
  if timestampsOk o mapped then
    let sorted := (sortMapped o mapped).map Prod.snd
    match k with
    | .first =>
      match sorted with
      | [] => .aborted
      | s :: rest => .ok s rest
    | .last =>
      match sorted.getLast? with
      | none => .aborted
      | some l => .ok l sorted.dropLast
  else .aborted

/-!
## Similarity engine (src/similarity.rs)

A perceptual fingerprint is its sequence of bits (the code stores whole
bytes; `totalBits` is `as_bytes().len() * 8`, the length of the bit
sequence).  The f32 arithmetic of `Similarity::collect` is exact for the
values the program produces (distances over a fixed 256-bit hash divided by
a power of two), so scores are modelled as exact rationals.
-/

/-- A perceptual fingerprint as its sequence of bits. -/
abbrev Fingerprint := List Bool

/-- Bit Hamming distance, ImageHash::dist. -/
def hamming (a b : Fingerprint) : Nat :=
  (List.zipWith (fun x y => x != y) a b).count true

/-- `hasha.as_bytes().len() * 8`: the fingerprint's bit length. -/
def totalBits (a : Fingerprint) : Nat := a.length

/-- similarity.rs lines 143-151: the similarity score of two fingerprints.
The code special-cases dist == 0 to 0.0 before dividing; over ℚ the
division gives the same value (0 / n = 0, also when n = 0). -/
def simScore (a b : Fingerprint) : ℚ :=
  1 - (hamming a b : ℚ) / (totalBits a : ℚ)

/-- similarity.rs line 134: `similarity_score as f32 / 100.0`. -/
def requiredSimilarity (s : Nat) : ℚ := (s : ℚ) / 100

/-- itertools tuple_combinations on a list: all pairs (i, j) with i < j, in
ascending i then ascending j. -/
def pairCombinations : List α → List (α × α)
  | [] => []
  | x :: xs => (xs.map fun y => (x, y)) ++ pairCombinations xs

/-- similarity.rs lines 138-158: score every unordered pair and retain, in
discovery order, those whose score is not below the threshold. -/
def collectPairs (hashes : List (Fingerprint × String)) (t : ℚ) :
    List (ℚ × String × String) :=
  (pairCombinations hashes).filterMap fun pr =>
    let score := simScore pr.1.1 pr.2.1
    if score < t then none else some (score, pr.1.2, pr.2.2)

/-- similarity.rs SimilarityGroup: the score of the pair that created the
group plus the set of member paths. -/
structure SimGroup where
  score : ℚ
  set : Finset String
deriving DecidableEq

instance : Inhabited SimGroup := ⟨⟨0, ∅⟩⟩

/-- The clustering state of Similarity::collect: the
`duplicate_group_indices` path-to-group map (a HashMap modelled as an
association list where the most recent insertion shadows older ones) and
the `duplicate_groups` vector. -/
structure ClusterState where
  indices : List (String × Nat)
  groups : List SimGroup
deriving DecidableEq

/-- HashMap::get on the association list: the most recent binding wins. -/
def lookupPath : List (String × Nat) → String → Option Nat
  | [], _ => none
  | (q, g) :: rest, p => if q = p then some g else lookupPath rest p

/-- `group.set.insert(filea.path()); group.set.insert(fileb.path())`. -/
def groupInsert (g : SimGroup) (a b : String) : SimGroup :=
  { g with set := insert b (insert a g.set) }

/-- The common tail of one clustering iteration: insert both endpoints into
the chosen group and remap both endpoints to it. -/
def mkStep (st : ClusterState) (gi : Nat) (a b : String) : ClusterState :=
  ⟨(b, gi) :: (a, gi) :: st.indices,
   st.groups.set gi (groupInsert (st.groups.getD gi default) a b)⟩

/-- similarity.rs lines 173-197: one iteration over a retained pair. The
group is found via filea if it is mapped, else via fileb, else a fresh
group holding this pair's score is appended. -/
def clusterStep (st : ClusterState) (pr : ℚ × String × String) :
    ClusterState :=
  match lookupPath st.indices pr.2.1 with
  | some gi => mkStep st gi pr.2.1 pr.2.2
  | none =>
    match lookupPath st.indices pr.2.2 with
    | some gi => mkStep st gi pr.2.1 pr.2.2
    | none =>
      mkStep ⟨st.indices, st.groups ++ [⟨pr.1, ∅⟩]⟩ st.groups.length
        pr.2.1 pr.2.2

/-- The whole clustering loop, from the empty state. -/
def clusterPairs (pairs : List (ℚ × String × String)) : ClusterState :=
  pairs.foldl clusterStep ⟨[], []⟩

/-!
## Exact-duplicate engine (deduplicator.rs get_true_dupes and consume)

`HashMap::entry(..).or_insert_with(Vec::new).push(..)` is modelled as an
association list keyed by digest, keeping first-insertion key order and
appending entries to their bucket in arrival order.
-/

/-- `map.entry(digest).or_insert_with(Vec::new).push(entry)`. -/
def addDigest : List (Nat × List Entry) → Nat → Entry → List (Nat × List Entry)
  | [], d, e => [(d, [e])]
  | (d', es) :: rest, d, e =>
    if d' = d then (d', es ++ [e]) :: rest
    else (d', es) :: addDigest rest d e

/-- deduplicator.rs lines 189-198: bucket the entries whose digest could be
computed by their digest; entries whose digest fails are skipped. -/
def digestBuckets (entries : List Entry) : List (Nat × List Entry) :=
  entries.foldl
    (fun m e =>
      match e.digest with
      | none => m
      | some d => addDigest m d e)
    []

/-- deduplicator.rs Deduplicator::get_true_dupes: a singleton size bucket
short-circuits; otherwise digest sub-buckets with more than one member are
the duplicate groups and each remaining sub-bucket counts as one size
collision. -/
def getTrueDupes (entries : List Entry) : List (List Entry) × Nat :=
  if entries.length = 1 then ([], 0)
  else
    let m := digestBuckets entries
    (m.filterMap fun p => if 1 < p.2.length then some p.2 else none,
     m.countP fun p => !(1 < p.2.length))

/-- The output-sort comparison of Deduplicator::consume: buckets are
compared by the selection key of their LAST member
(`f.last().unwrap()`, then `metadata().unwrap().modified().unwrap()` /
`created().unwrap()` / `file_name()`). -/
def bucketLastLe (o : FileOrdering) (a b : Nat × List Entry) : Prop :=
  entryLe o (a.2.getLast?.getD default) (b.2.getLast?.getD default)

instance (o : FileOrdering) : DecidableRel (bucketLastLe o) := fun a b => by
  unfold bucketLastLe; infer_instance

instance (o : FileOrdering) : IsTotal (Nat × List Entry) (bucketLastLe o) := by
  constructor
  intro a b
  exact (instIsTotalEntryEntryLe o).total _ _

instance (o : FileOrdering) : IsTrans (Nat × List Entry) (bucketLastLe o) := by
  constructor
  intro a b c
  exact entryLe_trans o

/-- deduplicator.rs lines 224-241: when sort_output is set, stably sort the
size buckets by the key of each bucket's last member. -/
def sortBuckets (so : Option FileOrdering) (bs : List (Nat × List Entry)) :
    List (Nat × List Entry) :=
  match so with
  | none => bs
  | some o => List.insertionSort (bucketLastLe o) bs

/-- The sequence of duplicate groups printed by Deduplicator::consume: the
groups of each size bucket, in (sorted) bucket order. -/
def emitGroups (so : Option FileOrdering) (bs : List (Nat × List Entry)) :
    List (List Entry) :=
  (sortBuckets so bs).flatMap fun p => (getTrueDupes p.2).1

/-- Each emitted group paired with the last member of the size bucket it
came from (the entry whose key decided the bucket's output position). -/
def emitGroupsKeyed (so : Option FileOrdering)
    (bs : List (Nat × List Entry)) : List (Entry × List Entry) :=
  (sortBuckets so bs).flatMap fun p =>
    ((getTrueDupes p.2).1).map fun g => (p.2.getLast?.getD default, g)

/-!
## The per-group selection loop and the summary tally (consume)
-/

/-- Running Deduplicator::select over a list of duplicate groups as consume
does.  A panic in select kills the process: every later group is lost,
hence the `Option` (`none` = the run died). -/
def runSelect (o : FileOrdering) (k : Keep) :
    List (List Entry) → Option (List (Entry × List Entry))
  | [] => some []
  | g :: rest =>
    match select o k g with
    | .aborted => none
    | .ok s d => (runSelect o k rest).map fun t => (s, d) :: t

/-- The four counters of Deduplicator::consume. -/
structure Tally where
  groups : Nat
  dupes : Nat
  collisions : Nat
  spaceSaved : Nat
deriving DecidableEq

/-- deduplicator.rs lines 250-277: the per-group accounting.  The
space-saved accumulation (line 264) sits inside the `if !self.options.quiet`
reporting block; the group and duplicate counters do not. -/
def consumeGroup (quiet : Bool) (o : FileOrdering) (k : Keep) (size : Nat)
    (t : Tally) (g : List Entry) : Option Tally :=
  match select o k g with
  | .aborted => none
  | .ok _ d =>
    some
      { groups := t.groups + 1
        dupes := t.dupes + (d.length + 1)
        collisions := t.collisions
        spaceSaved :=
          if quiet then t.spaceSaved else t.spaceSaved + size * d.length }

/-- One size bucket of the consume loop: count its size collisions, then
account every duplicate group it yields. -/
def consumeBucket (quiet : Bool) (o : FileOrdering) (k : Keep) (t : Tally)
    (b : Nat × List Entry) : Option Tally :=
  let gd := getTrueDupes b.2
  gd.1.foldlM (consumeGroup quiet o k b.1)
    { t with collisions := t.collisions + gd.2 }

/-- The whole tally of Deduplicator::consume over the (optionally sorted)
size buckets, starting from zero counters. -/
def consumeRun (quiet : Bool) (so : Option FileOrdering) (o : FileOrdering)
    (k : Keep) (bs : List (Nat × List Entry)) : Option Tally :=
  (sortBuckets so bs).foldlM (consumeBucket quiet o k) ⟨0, 0, 0, 0⟩

/-!
## Deletion (deduplicator.rs Deduplicator::delete)

The filesystem is modelled as the list of present paths plus the paths
whose removal errors out even though they are present (e.g. permissions).
`removeFile` models `fs::remove_file`.
-/

/-- The cause attached to a failed removal. -/
inductive RemoveError
  | notFound
  | accessDenied
deriving DecidableEq

/-- The modelled filesystem state. -/
structure FS where
  present : List String
  failing : List String
deriving DecidableEq

/-- fs::remove_file: removing an absent path errors with notFound; a
present-but-failing path errors with accessDenied; otherwise the path is
removed. -/
def removeFile (fs : FS) (p : String) : FS × Option RemoveError :=
  if p ∈ fs.present then
    if p ∈ fs.failing then (fs, some .accessDenied)
    else ({ present := fs.present.erase p, failing := fs.failing }, none)
  else (fs, some .notFound)

/-- deduplicator.rs lines 311-322: remove every duplicate in turn; a failed
removal is logged with its path and cause and the loop continues. -/
def deleteFiles : List String → FS → FS × List (String × RemoveError)
  | [], fs => (fs, [])
  | p :: rest, fs =>
    match removeFile fs p with
    | (fs1, none) => deleteFiles rest fs1
    | (fs1, some e) =>
      let r := deleteFiles rest fs1
      (r.1, (p, e) :: r.2)

/-!
## Lemmas about select
-/

/-- The survivors of the selection sort, in sorted order. -/
def sortedEntries (o : FileOrdering) (files : List Entry) : List Entry :=
  (sortMapped o (mapWithMetadata files)).map Prod.snd

theorem mapWithMetadata_of_readable {files : List Entry}
    (h : ∀ e ∈ files, e.metadata.isSome) :
    mapWithMetadata files = files.map fun e => (entryMeta e, e) := by
  induction files with
  | nil => rfl
  | cons e rest ih =>
    have he := h e (List.mem_cons_self e rest)
    obtain ⟨m, hm⟩ := Option.isSome_iff_exists.mp he
    have ht := ih fun x hx => h x (List.mem_cons_of_mem _ hx)
    simp [mapWithMetadata, hm, entryMeta] at ht ⊢
    exact ht

theorem map_snd_entryMeta (files : List Entry) :
    files.map (Prod.snd ∘ fun e => (entryMeta e, e)) = files := by
  induction files with
  | nil => rfl
  | cons x xs ih => simpa using ih

theorem sortedEntries_perm (o : FileOrdering) {files : List Entry}
    (h : ∀ e ∈ files, e.metadata.isSome) :
    (sortedEntries o files).Perm files := by
  unfold sortedEntries
  rw [mapWithMetadata_of_readable h]
  have h1 : (sortMapped o (files.map fun e => (entryMeta e, e))).Perm
      (files.map fun e => (entryMeta e, e)) := List.perm_insertionSort _ _
  have h2 := h1.map Prod.snd
  simp only [List.map_map] at h2
  rw [map_snd_entryMeta files] at h2
  exact h2

theorem sortedEntries_sorted (o : FileOrdering) {files : List Entry}
    (h : ∀ e ∈ files, e.metadata.isSome) :
    (sortedEntries o files).Sorted (entryLe o) := by
  have hs : (sortMapped o (mapWithMetadata files)).Sorted (metaKeyLe o) :=
    List.sorted_insertionSort _ _
  have hshape : ∀ p ∈ sortMapped o (mapWithMetadata files),
      p = (entryMeta p.2, p.2) := by
    intro p hp
    have hp2 : p ∈ mapWithMetadata files :=
      (List.perm_insertionSort _ _).mem_iff.mp hp
    rw [mapWithMetadata_of_readable h] at hp2
    obtain ⟨e, _, he⟩ := List.mem_map.mp hp2
    simp [← he]
  unfold sortedEntries
  rw [List.Sorted, List.pairwise_map]
  refine hs.imp_of_mem ?_
  intro p q hp hq hle
  have := hshape p hp
  have := hshape q hq
  unfold entryLe
  rw [← hshape p hp, ← hshape q hq]
  exact hle

theorem select_first_eq (o : FileOrdering) (files : List Entry)
    (hts : timestampsOk o (mapWithMetadata files) = true) :
    select o .first files =
      match sortedEntries o files with
      | [] => .aborted
      | s :: rest => .ok s rest := by
  simp only [select, hts, if_true]
  rfl

theorem select_last_eq (o : FileOrdering) (files : List Entry)
    (hts : timestampsOk o (mapWithMetadata files) = true) :
    select o .last files =
      match (sortedEntries o files).getLast? with
      | none => .aborted
      | some l => .ok l (sortedEntries o files).dropLast := by
  simp only [select, hts, if_true]
  rfl

/-- C1: for a duplicate group whose members all have readable metadata (and
readable timestamps when ordering by time), `select` succeeds; with
keep=first the source is a minimum of the group under the ordering key and
with keep=last a maximum; the duplicates are the remaining members, in
sorted order, and there are `|G| - 1` of them. -/
theorem C1_selection_min_max (o : FileOrdering) (k : Keep)
    (files : List Entry) (hne : files ≠ [])
    (hmeta : ∀ e ∈ files, e.metadata.isSome)
    (hts : timestampsOk o (mapWithMetadata files) = true) :
    ∃ s d, select o k files = .ok s d ∧
      d.length = files.length - 1 ∧
      d.Sorted (entryLe o) ∧
      (s :: d).Perm files ∧
      (k = .first → ∀ e ∈ files, entryLe o s e) ∧
      (k = .last → ∀ e ∈ files, entryLe o e s) := by
  have hperm := sortedEntries_perm o hmeta
  have hsorted := sortedEntries_sorted o hmeta
  have hne2 : sortedEntries o files ≠ [] := by
    intro hnil
    rw [hnil] at hperm
    exact hne hperm.symm.eq_nil
  cases k with
  | first =>
    cases hL : sortedEntries o files with
    | nil => exact absurd hL hne2
    | cons s d =>
      refine ⟨s, d, ?_, ?_, ?_, ?_, ?_, ?_⟩
      · rw [select_first_eq o files hts, hL]
      · have := hperm.length_eq
        rw [hL] at this
        simp only [List.length_cons] at this
        omega
      · rw [hL] at hsorted
        exact (List.sorted_cons.mp hsorted).2
      · rw [hL] at hperm
        exact hperm
      · intro _ e he
        rw [hL] at hperm hsorted
        have hmem : e ∈ s :: d := hperm.symm.subset he
        rcases List.mem_cons.mp hmem with h | h
        · exact h ▸ entryLe_refl o s
        · exact (List.sorted_cons.mp hsorted).1 e h
      · intro hk
        cases hk
  | last =>
    have hlast : (sortedEntries o files).getLast? =
        some ((sortedEntries o files).getLast hne2) :=
      List.getLast?_eq_getLast _ hne2
    refine ⟨(sortedEntries o files).getLast hne2,
      (sortedEntries o files).dropLast, ?_, ?_, ?_, ?_, ?_, ?_⟩
    · rw [select_last_eq o files hts, hlast]
    · have := hperm.length_eq
      have hl2 := (sortedEntries o files).length_dropLast
      rw [← this, hl2]
    · have hsplit := List.dropLast_append_getLast hne2
      rw [← hsplit] at hsorted
      exact ((List.pairwise_append).mp hsorted).1
    · have hsplit := List.dropLast_append_getLast hne2
      refine List.Perm.trans ?_ hperm
      conv_rhs => rw [← hsplit]
      exact (List.perm_append_singleton _ _).symm
    · intro hk
      cases hk
    · intro _ e he
      have hsplit := List.dropLast_append_getLast hne2
      have hmem : e ∈ sortedEntries o files := hperm.symm.subset he
      rw [← hsplit] at hmem hsorted
      rcases List.mem_append.mp hmem with h | h
      · exact ((List.pairwise_append).mp hsorted).2.2 e h _ (List.mem_singleton_self _)
      · rw [List.mem_singleton.mp h]
        exact entryLe_refl o _

/-- Concrete group for the C1 witness. -/
def c1files : List Entry :=
  [⟨"r/b", 2, some ⟨some 20, some 20⟩, some 7⟩,
   ⟨"r/a", 1, some ⟨some 10, some 10⟩, some 7⟩]

/-- C1 witness: the theorem applied at a concrete two-member group. -/
theorem C1_selection_min_max_witness :
    (c1files ≠ [] ∧ (∀ e ∈ c1files, e.metadata.isSome) ∧
      timestampsOk .modified (mapWithMetadata c1files) = true) ∧
    (∃ s d, select .modified .first c1files = .ok s d ∧
      d.length = c1files.length - 1 ∧
      d.Sorted (entryLe .modified) ∧
      (s :: d).Perm c1files ∧
      (Keep.first = .first → ∀ e ∈ c1files, entryLe .modified s e) ∧
      (Keep.first = .last → ∀ e ∈ c1files, entryLe .modified e s)) :=
  ⟨⟨by decide, by decide, by decide⟩,
    C1_selection_min_max .modified .first c1files (by decide) (by decide)
      (by decide)⟩

theorem sortedEntries_length (o : FileOrdering) (files : List Entry) :
    (sortedEntries o files).length = (mapWithMetadata files).length := by
  unfold sortedEntries
  rw [List.length_map]
  exact (List.perm_insertionSort _ _).length_eq

theorem select_nil_mapped (o : FileOrdering) (k : Keep) (files : List Entry)
    (h : mapWithMetadata files = []) : select o k files = .aborted := by
  have hts : timestampsOk o (mapWithMetadata files) = true := by
    rw [h]; cases o <;> rfl
  have hnil : sortedEntries o files = [] := by
    have hl := sortedEntries_length o files
    rw [h] at hl
    exact List.length_eq_zero.mp (by simpa using hl)
  cases k with
  | first =>
    rw [select_first_eq o files hts, hnil]
  | last =>
    rw [select_last_eq o files hts, hnil]
    rfl

theorem select_ok_of_mapped_ne (o : FileOrdering) (k : Keep)
    (files : List Entry) (hne : mapWithMetadata files ≠ [])
    (hts : timestampsOk o (mapWithMetadata files) = true) :
    ∃ s d, select o k files = .ok s d ∧
      d.length + 1 = (mapWithMetadata files).length := by
  have hlen := sortedEntries_length o files
  have hne2 : sortedEntries o files ≠ [] := by
    intro hnil
    rw [hnil] at hlen
    exact hne (List.length_eq_zero.mp (by simpa using hlen.symm))
  cases k with
  | first =>
    cases hL : sortedEntries o files with
    | nil => exact absurd hL hne2
    | cons s d =>
      refine ⟨s, d, ?_, ?_⟩
      · rw [select_first_eq o files hts, hL]
      · rw [hL] at hlen
        simpa using hlen
  | last =>
    have hlast : (sortedEntries o files).getLast? =
        some ((sortedEntries o files).getLast hne2) :=
      List.getLast?_eq_getLast _ hne2
    refine ⟨(sortedEntries o files).getLast hne2,
      (sortedEntries o files).dropLast, ?_, ?_⟩
    · rw [select_last_eq o files hts, hlast]
    · rw [List.length_dropLast, ← hlen]
      have hp : 0 < (sortedEntries o files).length :=
        List.length_pos.mpr hne2
      omega

/-- C9: select silently drops members whose metadata read fails before
sorting, returning one duplicate fewer than the count of surviving members
(which can be well below `|G| - 1`); and when the metadata read fails for
every member the sorted vector is empty, so both keep policies panic
(`remove(0)` on an empty vector, `pop().unwrap()` of None) instead of
returning or erroring. -/
theorem C9_select_drop_and_panic (o : FileOrdering) (k : Keep)
    (files : List Entry) :
    (mapWithMetadata files = [] → select o k files = .aborted) ∧
    (mapWithMetadata files ≠ [] →
      timestampsOk o (mapWithMetadata files) = true →
      ∃ s d, select o k files = .ok s d ∧
        d.length + 1 = (mapWithMetadata files).length) := by
  exact ⟨select_nil_mapped o k files, select_ok_of_mapped_ne o k files⟩

/-- A group whose every member has an unreadable metadata. -/
def c9nometa : List Entry := [⟨"r/n", 14, none, some 3⟩]

/-- A group with one unreadable-metadata member among readable ones. -/
def c9mixed : List Entry :=
  [⟨"r/k", 11, none, some 3⟩,
   ⟨"r/l", 12, some ⟨some 5, some 5⟩, some 3⟩,
   ⟨"r/m", 13, some ⟨some 4, some 4⟩, some 3⟩]

/-- C9 witness: all-failing group panics; a mixed group returns a
duplicates list shorter than `|G| - 1`. -/
theorem C9_select_drop_and_panic_witness :
    (mapWithMetadata c9nometa = [] ∧
      select .modified .first c9nometa = .aborted) ∧
    ((mapWithMetadata c9mixed ≠ [] ∧
        timestampsOk .modified (mapWithMetadata c9mixed) = true) ∧
      (∃ s d, select .modified .first c9mixed = .ok s d ∧
        d.length + 1 = (mapWithMetadata c9mixed).length) ∧
      (mapWithMetadata c9mixed).length < c9mixed.length) :=
  ⟨⟨by decide,
    (C9_select_drop_and_panic .modified .first c9nometa).1 (by decide)⟩,
   ⟨⟨by decide, by decide⟩,
    (C9_select_drop_and_panic .modified .first c9mixed).2 (by decide)
      (by decide),
    by decide⟩⟩

/-- C3 counterexample input: a group whose second member has readable
metadata but an unreadable modified timestamp. -/
def c3bad : List Entry :=
  [⟨"r/x", 24, some ⟨some 1, some 1⟩, some 1⟩,
   ⟨"r/y", 25, some ⟨none, none⟩, some 1⟩]

/-- C3 counterexample input: a healthy later group. -/
def c3good : List Entry :=
  [⟨"r/u", 21, some ⟨some 1, some 1⟩, some 2⟩,
   ⟨"r/v", 22, some ⟨some 2, some 2⟩, some 2⟩]

/-- C3 counterexample: when a modified timestamp cannot be read, select
does not surface a per-group error — it panics (`meta.modified().unwrap()`),
and the panic kills the whole run: a later healthy group that would have
been processed on its own is lost. -/
theorem C3_counterexample :
    select .modified .first c3bad = .aborted ∧
    runSelect .modified .first [c3bad, c3good] = none ∧
    runSelect .modified .first [c3good] ≠ none := by decide

/-- C3 amended: when ordering by time and a surviving member's needed
timestamp is unreadable, select panics and the whole run dies (every group
after it is lost) — a run-wide abort, not a per-group error; ordering by
Name never consults timestamps and succeeds whenever at least one member's
metadata was readable. -/
theorem C3_amended_panic (k : Keep) :
    (∀ o files rest, timestampsOk o (mapWithMetadata files) = false →
      select o k files = .aborted ∧ runSelect o k (files :: rest) = none) ∧
    (∀ files, mapWithMetadata files ≠ [] →
      ∃ s d, select .name k files = .ok s d) := by
  constructor
  · intro o files rest hts
    have hsel : select o k files = .aborted := by
      unfold select
      simp [hts]
    refine ⟨hsel, ?_⟩
    unfold runSelect
    rw [hsel]
  · intro files hne
    have hts : timestampsOk .name (mapWithMetadata files) = true := rfl
    obtain ⟨s, d, hsel, _⟩ := select_ok_of_mapped_ne .name k files hne hts
    exact ⟨s, d, hsel⟩

/-- C3 amended witness: the amended theorem applied to a group with an
unreadable modified timestamp followed by a healthy group, and to name
ordering on the healthy group. -/
theorem C3_amended_panic_witness :
    (timestampsOk .modified (mapWithMetadata c3bad) = false ∧
      (select .modified .first c3bad = .aborted ∧
        runSelect .modified .first [c3bad, c3good] = none)) ∧
    (mapWithMetadata c3good ≠ [] ∧
      ∃ s d, select .name .first c3good = .ok s d) :=
  ⟨⟨by decide,
    (C3_amended_panic .first).1 .modified c3bad [c3good] (by decide)⟩,
   ⟨by decide, (C3_amended_panic .first).2 c3good (by decide)⟩⟩

/-!
## Lemmas about the similarity score
-/

theorem hamming_comm (a b : Fingerprint) : hamming a b = hamming b a := by
  unfold hamming
  congr 1
  induction a generalizing b with
  | nil => cases b <;> rfl
  | cons x xs ih =>
    cases b with
    | nil => rfl
    | cons y ys =>
      simp only [List.zipWith_cons_cons]
      rw [ih ys]
      congr 1
      cases x <;> cases y <;> rfl

theorem hamming_self (a : Fingerprint) : hamming a a = 0 := by
  unfold hamming
  induction a with
  | nil => rfl
  | cons x xs ih =>
    have hx : (x != x) = false := by cases x <;> rfl
    simp only [List.zipWith_cons_cons, hx]
    simpa using ih

theorem hamming_le_length (a b : Fingerprint) : hamming a b ≤ a.length := by
  unfold hamming
  calc (List.zipWith (fun x y => x != y) a b).count true
      ≤ (List.zipWith (fun x y => x != y) a b).length :=
        List.count_le_length _ _
    _ = min a.length b.length := List.length_zipWith _ _ _
    _ ≤ a.length := Nat.min_le_left _ _

/-- C5: for equal-length fingerprints the similarity score is
`1 - HammingDistance / totalBits`, is symmetric, lies in [0, 1], and is
exactly 1 for identical fingerprints. -/
theorem C5_simscore_props (a b : Fingerprint) (h : a.length = b.length) :
    simScore a b = 1 - (hamming a b : ℚ) / (totalBits a : ℚ) ∧
    simScore a b = simScore b a ∧
    0 ≤ simScore a b ∧ simScore a b ≤ 1 ∧
    (a = b → simScore a b = 1) := by
  refine ⟨rfl, ?_, ?_, ?_, ?_⟩
  · unfold simScore totalBits
    rw [hamming_comm, h]
  · unfold simScore totalBits
    rcases Nat.eq_zero_or_pos a.length with hz | hp
    · have hd : hamming a b = 0 := Nat.le_zero.mp (hz ▸ hamming_le_length a b)
      simp [hd]
    · have hle : (hamming a b : ℚ) ≤ (a.length : ℚ) := by
        exact_mod_cast hamming_le_length a b
      have hpos : (0 : ℚ) < (a.length : ℚ) := by exact_mod_cast hp
      have hq : (hamming a b : ℚ) / (a.length : ℚ) ≤ 1 :=
        (div_le_one hpos).mpr hle
      linarith
  · unfold simScore totalBits
    have hq : (0 : ℚ) ≤ (hamming a b : ℚ) / (a.length : ℚ) :=
      div_nonneg (by positivity) (by positivity)
    linarith
  · intro hab
    subst hab
    unfold simScore
    simp [hamming_self]

/-- C5 witness: the properties applied at two concrete 8-bit fingerprints. -/
theorem C5_simscore_props_witness :
    ([false, true, false, true, false, false, false, false].length =
      [false, true, true, true, false, false, false, false].length) ∧
    (simScore [false, true, false, true, false, false, false, false]
        [false, true, true, true, false, false, false, false] =
      1 - (hamming [false, true, false, true, false, false, false, false]
          [false, true, true, true, false, false, false, false] : ℚ) /
        (totalBits [false, true, false, true, false, false, false, false] : ℚ) ∧
    simScore [false, true, false, true, false, false, false, false]
        [false, true, true, true, false, false, false, false] =
      simScore [false, true, true, true, false, false, false, false]
        [false, true, false, true, false, false, false, false] ∧
    0 ≤ simScore [false, true, false, true, false, false, false, false]
        [false, true, true, true, false, false, false, false] ∧
    simScore [false, true, false, true, false, false, false, false]
        [false, true, true, true, false, false, false, false] ≤ 1 ∧
    ([false, true, false, true, false, false, false, false] =
        [false, true, true, true, false, false, false, false] →
      simScore [false, true, false, true, false, false, false, false]
        [false, true, true, true, false, false, false, false] = 1)) :=
  ⟨by decide,
    C5_simscore_props [false, true, false, true, false, false, false, false]
      [false, true, true, true, false, false, false, false] (by decide)⟩

/-!
## Lemmas about the clustering loop
-/

theorem getD_set_ne {α : Type _} (l : List α) (n i : Nat) (v d : α)
    (h : i ≠ n) : (l.set n v).getD i d = l.getD i d := by
  rw [List.getD_eq_getElem?_getD, List.getD_eq_getElem?_getD,
    List.getElem?_set_ne fun hh => h hh.symm]

theorem getD_set_self {α : Type _} (l : List α) (n : Nat) (v d : α)
    (h : n < l.length) : (l.set n v).getD n d = v := by
  rw [List.getD_eq_getElem?_getD, List.getElem?_set_eq_of_lt v h]
  rfl

/-- Any member of any group after one clustering step is an endpoint of the
processed pair or was already a member of some group. -/
theorem clusterStep_member (st : ClusterState) (pr : ℚ × String × String)
    (g : SimGroup) (hg : g ∈ (clusterStep st pr).groups) (p : String)
    (hp : p ∈ g.set) :
    p = pr.2.1 ∨ p = pr.2.2 ∨ ∃ g0 ∈ st.groups, p ∈ g0.set := by
  have main : ∀ (st' : ClusterState) (gi : Nat),
      (∀ g0 ∈ st'.groups, g0 ∈ st.groups ∨ g0.set = ∅) →
      g ∈ (mkStep st' gi pr.2.1 pr.2.2).groups →
      p = pr.2.1 ∨ p = pr.2.2 ∨ ∃ g0 ∈ st.groups, p ∈ g0.set := by
    intro st' gi hsub hmem
    unfold mkStep at hmem
    rcases List.mem_or_eq_of_mem_set hmem with hin | heq
    · rcases hsub g hin with hin2 | hempty
      · exact Or.inr (Or.inr ⟨g, hin2, hp⟩)
      · rw [hempty] at hp
        exact absurd hp (Finset.not_mem_empty p)
    · rw [heq] at hp
      unfold groupInsert at hp
      simp only [Finset.mem_insert] at hp
      rcases hp with h | h | h
      · exact Or.inr (Or.inl h)
      · exact Or.inl h
      · rcases Nat.lt_or_ge gi st'.groups.length with hlt | hge
        · have hmem0 : st'.groups.getD gi default ∈ st'.groups := by
            rw [List.getD_eq_getElem _ _ hlt]
            exact st'.groups.getElem_mem hlt
          rcases hsub _ hmem0 with hin2 | hempty
          · exact Or.inr (Or.inr ⟨_, hin2, h⟩)
          · rw [hempty] at h
            exact absurd h (Finset.not_mem_empty p)
        · rw [List.getD_eq_default _ _ hge] at h
          exact absurd h (Finset.not_mem_empty p)
  unfold clusterStep at hg
  rcases h1 : lookupPath st.indices pr.2.1 with _ | gi
  · rcases h2 : lookupPath st.indices pr.2.2 with _ | gi
    · rw [h1, h2] at hg
      refine main ⟨st.indices, st.groups ++ [⟨pr.1, ∅⟩]⟩ st.groups.length
        ?_ hg
      intro g0 hg0
      rcases List.mem_append.mp hg0 with h | h
      · exact Or.inl h
      · right
        rw [List.mem_singleton.mp h]
    · rw [h1, h2] at hg
      exact main st gi (fun g0 hg0 => Or.inl hg0) hg
  · rw [h1] at hg
    exact main st gi (fun g0 hg0 => Or.inl hg0) hg

/-- Any member of any group after the clustering loop is an endpoint of
some processed pair or was a member already in the starting state. -/
theorem clusterFold_member (pairs : List (ℚ × String × String)) :
    ∀ (st : ClusterState) (g : SimGroup),
      g ∈ (pairs.foldl clusterStep st).groups → ∀ p ∈ g.set,
      (∃ q ∈ pairs, p = q.2.1 ∨ p = q.2.2) ∨ ∃ g0 ∈ st.groups, p ∈ g0.set := by
  induction pairs with
  | nil =>
    intro st g hg p hp
    exact Or.inr ⟨g, hg, hp⟩
  | cons pr rest ih =>
    intro st g hg p hp
    rcases ih (clusterStep st pr) g hg p hp with h1 | h2
    · obtain ⟨q, hq, h⟩ := h1
      exact Or.inl ⟨q, List.mem_cons_of_mem _ hq, h⟩
    · obtain ⟨g0, hg0, hp0⟩ := h2
      rcases clusterStep_member st pr g0 hg0 p hp0 with h | h | h
      · exact Or.inl ⟨pr, List.mem_cons_self _ _, Or.inl h⟩
      · exact Or.inl ⟨pr, List.mem_cons_self _ _, Or.inr h⟩
      · exact Or.inr h

/-- C6: a scored pair is retained exactly when its score is at least
`similarity_score / 100`, and every member of every similarity group is an
endpoint of some retained pair — a pair below the threshold contributes
nothing to any group. -/
theorem C6_threshold (hashes : List (Fingerprint × String)) (s : Nat) :
    (∀ q, q ∈ collectPairs hashes (requiredSimilarity s) ↔
      ∃ pr ∈ pairCombinations hashes,
        requiredSimilarity s ≤ simScore pr.1.1 pr.2.1 ∧
        q = (simScore pr.1.1 pr.2.1, pr.1.2, pr.2.2)) ∧
    (∀ g ∈ (clusterPairs (collectPairs hashes (requiredSimilarity s))).groups,
      ∀ p ∈ g.set, ∃ q ∈ collectPairs hashes (requiredSimilarity s),
        p = q.2.1 ∨ p = q.2.2) := by
  constructor
  · intro q
    unfold collectPairs
    rw [List.mem_filterMap]
    constructor
    · rintro ⟨pr, hpr, hq⟩
      by_cases hlt : simScore pr.1.1 pr.2.1 < requiredSimilarity s
      · rw [if_pos hlt] at hq
        exact absurd hq (by simp)
      · rw [if_neg hlt] at hq
        exact ⟨pr, hpr, not_lt.mp hlt, (Option.some_inj.mp hq).symm⟩
    · rintro ⟨pr, hpr, hle, hq⟩
      refine ⟨pr, hpr, ?_⟩
      rw [if_neg (not_lt.mpr hle), hq]
  · intro g hg p hp
    rcases clusterFold_member _ ⟨[], []⟩ g hg p hp with h | h
    · exact h
    · obtain ⟨g0, hg0, _⟩ := h
      exact absurd hg0 (List.not_mem_nil g0)

/-!
## C2: clustering invariants and the double-membership counterexample
-/

/-- One clustering step never removes a group and never removes a member
from an existing group. -/
theorem clusterStep_mono (st : ClusterState) (pr : ℚ × String × String) :
    st.groups.length ≤ (clusterStep st pr).groups.length ∧
    ∀ i, i < st.groups.length →
      (st.groups.getD i default).set ⊆
        ((clusterStep st pr).groups.getD i default).set := by
  have main : ∀ (st' : ClusterState) (gi : Nat),
      st.groups.length ≤ st'.groups.length →
      (∀ i, i < st.groups.length →
        st'.groups.getD i default = st.groups.getD i default) →
      st.groups.length ≤ (mkStep st' gi pr.2.1 pr.2.2).groups.length ∧
      ∀ i, i < st.groups.length →
        (st.groups.getD i default).set ⊆
          ((mkStep st' gi pr.2.1 pr.2.2).groups.getD i default).set := by
    intro st' gi hlen hsame
    constructor
    · unfold mkStep
      simpa using hlen
    · intro i hi
      unfold mkStep
      simp only
      by_cases hgi : i = gi
      · subst hgi
        have hlt : i < st'.groups.length := lt_of_lt_of_le hi hlen
        rw [getD_set_self _ _ _ _ hlt]
        unfold groupInsert
        rw [hsame i hi]
        intro x hx
        exact Finset.mem_insert_of_mem (Finset.mem_insert_of_mem hx)
      · rw [getD_set_ne _ _ _ _ _ hgi, hsame i hi]
  unfold clusterStep
  rcases h1 : lookupPath st.indices pr.2.1 with _ | gi
  · rcases h2 : lookupPath st.indices pr.2.2 with _ | gi
    · refine main ⟨st.indices, st.groups ++ [⟨pr.1, ∅⟩]⟩ st.groups.length
        ?_ ?_
      · simp
      · intro i hi
        simp only
        exact List.getD_append _ _ _ _ hi
    · exact main st gi le_rfl (fun i hi => rfl)
  · exact main st gi le_rfl (fun i hi => rfl)

/-- C2 amended: over any sequence of retained pairs, the clustering loop
only grows the group list and only adds members to existing groups — once
two paths are in the same group they are never separated.  (The dropped
conjunct — that no path occurs in two distinct emitted groups — is refuted
by the counterexample.) -/
theorem C2_amended_groups_only_grow (pairs : List (ℚ × String × String)) :
    ∀ (st : ClusterState),
      st.groups.length ≤ (pairs.foldl clusterStep st).groups.length ∧
      ∀ i, i < st.groups.length →
        (st.groups.getD i default).set ⊆
          ((pairs.foldl clusterStep st).groups.getD i default).set := by
  induction pairs with
  | nil => exact fun st => ⟨le_rfl, fun i _ => subset_rfl⟩
  | cons pr rest ih =>
    intro st
    have hstep := clusterStep_mono st pr
    have hrest := ih (clusterStep st pr)
    simp only [List.foldl_cons]
    refine ⟨le_trans hstep.1 hrest.1, ?_⟩
    intro i hi
    exact subset_trans (hstep.2 i hi)
      (hrest.2 i (lt_of_lt_of_le hi hstep.1))

/-- Fingerprints realizing the C2 counterexample: retained pairs, in
discovery order, are (p0,p2), (p1,p3), (p2,p3) at threshold 75. -/
def c2hashes : List (Fingerprint × String) :=
  [([false, false, false, false, false, false, false, false], "p0"),
   ([true, true, true, true, true, true, false, false], "p1"),
   ([true, true, false, false, false, false, false, false], "p2"),
   ([true, true, true, true, false, false, false, false], "p3")]

/-- The retained pairs of `c2hashes` at threshold 75, written out. -/
def c2pairs : List (ℚ × String × String) :=
  [((3 : ℚ)/4, "p0", "p2"), ((3 : ℚ)/4, "p1", "p3"),
   ((3 : ℚ)/4, "p2", "p3")]

theorem c2pairs_eq :
    collectPairs c2hashes (requiredSimilarity 75) = c2pairs := by
  unfold collectPairs c2hashes requiredSimilarity c2pairs
  norm_num [pairCombinations, List.filterMap_cons, simScore, hamming,
    totalBits]

/-- The clustering state the program reaches on `c2hashes`. -/
def c2state : ClusterState :=
  clusterPairs (collectPairs c2hashes (requiredSimilarity 75))

/-- C2 counterexample: on these four fingerprints the retained pairs are
(p0,p2), (p1,p3), (p2,p3); processing (p2,p3) pulls p3 into group 0 while
it stays a member of group 1, so p3 is a member of two distinct emitted
groups. -/
theorem C2_counterexample :
    1 < c2state.groups.length ∧
    "p3" ∈ (c2state.groups.getD 0 default).set ∧
    "p3" ∈ (c2state.groups.getD 1 default).set ∧
    "p0" ∈ (c2state.groups.getD 0 default).set ∧
    "p0" ∉ (c2state.groups.getD 1 default).set := by
  have h : c2state = clusterPairs c2pairs := by
    unfold c2state
    rw [c2pairs_eq]
  rw [h]
  decide

/-- The clustering state after the first two counterexample pairs. -/
def c2firstTwo : ClusterState :=
  clusterPairs [((3 : ℚ)/4, "p0", "p2"), ((3 : ℚ)/4, "p1", "p3")]

/-- C2 amended witness: the monotonicity invariant applied at the state
after the first two counterexample pairs, with the third still to process. -/
theorem C2_amended_groups_only_grow_witness :
    0 < c2firstTwo.groups.length ∧
    (c2firstTwo.groups.getD 0 default).set ⊆
      (([((3 : ℚ)/4, "p2", "p3")].foldl clusterStep c2firstTwo).groups.getD 0
        default).set :=
  ⟨by decide,
    (C2_amended_groups_only_grow [((3 : ℚ)/4, "p2", "p3")] c2firstTwo).2 0
      (by decide)⟩

/-- C6 witness: the retained pair (p0, p2) of the concrete run is indeed a
combination pair whose score clears the threshold. -/
theorem C6_threshold_witness :
    ∃ pr ∈ pairCombinations c2hashes,
      requiredSimilarity 75 ≤ simScore pr.1.1 pr.2.1 ∧
      ((3 : ℚ)/4, "p0", "p2") =
        (simScore pr.1.1 pr.2.1, pr.1.2, pr.2.2) := by
  refine ((C6_threshold c2hashes 75).1 ((3 : ℚ)/4, "p0", "p2")).mp ?_
  rw [c2pairs_eq]
  exact List.mem_cons_self _ _

/-!
## Lemmas about the digest buckets of get_true_dupes
-/

/-- Does the entry's digest equal d (the bucketing key test). -/
def digestIs (d : Nat) (e : Entry) : Bool := e.digest == some d

/-- First-match lookup into the digest bucket list. -/
def bLookup : List (Nat × List Entry) → Nat → Option (List Entry)
  | [], _ => none
  | (d', es) :: rest, d => if d' = d then some es else bLookup rest d

/-- One fold step of digestBuckets. -/
def bStep (m : List (Nat × List Entry)) (e : Entry) :
    List (Nat × List Entry) :=
  match e.digest with
  | none => m
  | some d => addDigest m d e

theorem digestBuckets_eq_foldl (entries : List Entry) :
    digestBuckets entries = entries.foldl bStep [] := by
  unfold digestBuckets bStep
  rfl

theorem bLookup_addDigest (m : List (Nat × List Entry)) (d : Nat) (e : Entry)
    (d' : Nat) :
    bLookup (addDigest m d e) d' =
      if d' = d then some ((bLookup m d).getD [] ++ [e])
      else bLookup m d' := by
  induction m with
  | nil =>
    by_cases h : d' = d
    · subst h
      simp [addDigest, bLookup]
    · have h2 : ¬d = d' := fun hh => h hh.symm
      simp [addDigest, bLookup, h, h2]
  | cons p rest ih =>
    obtain ⟨d0, es0⟩ := p
    by_cases h0 : d0 = d
    · subst h0
      by_cases h : d' = d0
      · subst h
        simp [addDigest, bLookup]
      · have h2 : ¬d0 = d' := fun hh => h hh.symm
        simp [addDigest, bLookup, h, h2]
    · by_cases h : d' = d0
      · subst h
        have h2 : ¬d' = d := fun hh => h0 (hh ▸ rfl)
        simp [addDigest, bLookup, h0, h2]
      · have h2 : ¬d0 = d' := fun hh => h hh.symm
        simp [addDigest, bLookup, h0, h2, ih]

theorem keys_addDigest_mem (m : List (Nat × List Entry)) (d : Nat) (e : Entry)
    (h : d ∈ m.map Prod.fst) :
    (addDigest m d e).map Prod.fst = m.map Prod.fst := by
  induction m with
  | nil => simp at h
  | cons p rest ih =>
    obtain ⟨d0, es0⟩ := p
    by_cases h0 : d0 = d
    · subst h0
      simp [addDigest]
    · simp only [List.map_cons, List.mem_cons] at h
      rcases h with h | h

      · exact absurd h.symm h0
      · simp [addDigest, h0, ih h]

theorem keys_addDigest_not_mem (m : List (Nat × List Entry)) (d : Nat)
    (e : Entry) (h : d ∉ m.map Prod.fst) :
    (addDigest m d e).map Prod.fst = m.map Prod.fst ++ [d] := by
  induction m with
  | nil => simp [addDigest]
  | cons p rest ih =>
    obtain ⟨d0, es0⟩ := p
    simp only [List.map_cons, List.mem_cons] at h
    push_neg at h
    have h0 : d0 ≠ d := fun hh => h.1 hh.symm
    simp [addDigest, h0, ih h.2]

theorem bLookup_eq_none_iff (m : List (Nat × List Entry)) (d : Nat) :
    bLookup m d = none ↔ d ∉ m.map Prod.fst := by
  induction m with
  | nil => simp [bLookup]
  | cons p rest ih =>
    obtain ⟨d0, es0⟩ := p
    by_cases h : d0 = d
    · subst h
      simp [bLookup]
    · have h2 : ¬d = d0 := fun hh => h hh.symm
      simp [bLookup, h, h2, ih]

theorem mem_iff_bLookup (m : List (Nat × List Entry)) (d : Nat)
    (es : List Entry) (hnd : (m.map Prod.fst).Nodup) :
    (d, es) ∈ m ↔ bLookup m d = some es := by
  induction m with
  | nil => simp [bLookup]
  | cons p rest ih =>
    obtain ⟨d0, es0⟩ := p
    simp only [List.map_cons, List.nodup_cons] at hnd
    by_cases h : d0 = d
    · subst h
      constructor
      · intro h1
        rcases List.mem_cons.mp h1 with h2 | h2
        · injection h2 with _ h2b
          unfold bLookup
          rw [if_pos rfl, h2b]
        · exact absurd (List.mem_map.mpr ⟨(d0, es), h2, rfl⟩) hnd.1
      · intro h1
        unfold bLookup at h1
        rw [if_pos rfl] at h1
        rw [← Option.some_inj.mp h1]
        exact List.mem_cons_self _ _
    · constructor
      · intro h1
        rcases List.mem_cons.mp h1 with h2 | h2
        · injection h2 with h2a _
          exact absurd h2a.symm h
        · unfold bLookup
          rw [if_neg h]
          exact (ih hnd.2).mp h2
      · intro h1
        unfold bLookup at h1
        rw [if_neg h] at h1
        exact List.mem_cons_of_mem _ ((ih hnd.2).mpr h1)

theorem digestIs_cons_of_ne {d d0 : Nat} (e : Entry)
    (he : e.digest = some d0) (h : d ≠ d0) : digestIs d e = false := by
  unfold digestIs
  rw [he]
  simp
  exact fun hh => h hh.symm

/-- Main characterization of the digest bucket fold. -/
theorem bFold_char (l : List Entry) :
    ∀ (m : List (Nat × List Entry)), (m.map Prod.fst).Nodup →
      ((l.foldl bStep m).map Prod.fst).Nodup ∧
      ∀ d, bLookup (l.foldl bStep m) d =
        if l.filter (digestIs d) = [] then bLookup m d
        else some ((bLookup m d).getD [] ++ l.filter (digestIs d)) := by
  induction l with
  | nil =>
    intro m hnd
    refine ⟨hnd, fun d => ?_⟩
    simp
  | cons e rest ih =>
    intro m hnd
    cases he : e.digest with
    | none =>
      have hstep : bStep m e = m := by unfold bStep; rw [he]
      have hfe : ∀ d, digestIs d e = false := by
        intro d
        unfold digestIs
        rw [he]
        rfl
      obtain ⟨ihnd, ihlook⟩ := ih m hnd
      refine ⟨?_, fun d => ?_⟩
      · simpa [hstep] using ihnd
      · have := ihlook d
        simp only [List.foldl_cons, hstep]
        rw [this, List.filter_cons, hfe d]
        simp
    | some d0 =>
      have hstep : bStep m e = addDigest m d0 e := by unfold bStep; rw [he]
      have hnd2 : ((addDigest m d0 e).map Prod.fst).Nodup := by
        by_cases hm : d0 ∈ m.map Prod.fst
        · rw [keys_addDigest_mem m d0 e hm]
          exact hnd
        · rw [keys_addDigest_not_mem m d0 e hm]
          simp [List.nodup_append, hnd, hm]
      obtain ⟨ihnd, ihlook⟩ := ih (addDigest m d0 e) hnd2
      refine ⟨?_, fun d => ?_⟩
      · simpa [hstep] using ihnd
      · simp only [List.foldl_cons, hstep]
        rw [ihlook d, bLookup_addDigest m d0 e d]
        by_cases hd : d = d0
        · subst hd
          have hfl : List.filter (digestIs d) (e :: rest) =
              e :: rest.filter (digestIs d) := by
            rw [List.filter_cons]
            have : digestIs d e = true := by
              unfold digestIs
              rw [he]
              simp
            simp [this]
          rw [hfl, if_pos rfl]
          by_cases hr : rest.filter (digestIs d) = []
          · simp [hr]
          · rw [if_neg hr, if_neg (by simp)]
            simp
        · have hfl : List.filter (digestIs d) (e :: rest) =
              rest.filter (digestIs d) := by
            rw [List.filter_cons, digestIs_cons_of_ne e he hd]
            simp
          rw [hfl, if_neg hd]

/-- The two facts C4 needs about digestBuckets. -/
theorem digestBuckets_char (entries : List Entry) :
    ((digestBuckets entries).map Prod.fst).Nodup ∧
    ∀ d, bLookup (digestBuckets entries) d =
      if entries.filter (digestIs d) = [] then none
      else some (entries.filter (digestIs d)) := by
  rw [digestBuckets_eq_foldl]
  obtain ⟨hnd, hlook⟩ := bFold_char entries [] (by simp)
  refine ⟨hnd, fun d => ?_⟩
  rw [hlook d]
  simp [bLookup]

theorem getTrueDupes_of_ne {entries : List Entry}
    (h : entries.length ≠ 1) :
    getTrueDupes entries =
      ((digestBuckets entries).filterMap
        (fun p => if 1 < p.2.length then some p.2 else none),
       (digestBuckets entries).countP fun p => !(1 < p.2.length)) := by
  unfold getTrueDupes
  rw [if_neg h]

theorem digestIs_iff {d : Nat} {e : Entry} :
    digestIs d e = true ↔ e.digest = some d := by
  unfold digestIs
  exact beq_iff_eq

/-- Each digest class that appears is nonempty; membership in the bucket
list pins the value to the filtered class. -/
theorem mem_digestBuckets_char {entries : List Entry} {d : Nat}
    {es : List Entry} (h : (d, es) ∈ digestBuckets entries) :
    es = entries.filter (digestIs d) ∧ es ≠ [] := by
  obtain ⟨hnd, hlook⟩ := digestBuckets_char entries
  have h2 := (mem_iff_bLookup _ d es hnd).mp h
  rw [hlook d] at h2
  by_cases hf : entries.filter (digestIs d) = []
  · rw [if_pos hf] at h2
    exact absurd h2 (by simp)
  · rw [if_neg hf] at h2
    have h3 : entries.filter (digestIs d) = es := Option.some_inj.mp h2
    exact ⟨h3.symm, h3 ▸ hf⟩

theorem class_mem_digestBuckets {entries : List Entry} {d : Nat}
    (h : entries.filter (digestIs d) ≠ []) :
    (d, entries.filter (digestIs d)) ∈ digestBuckets entries := by
  obtain ⟨hnd, hlook⟩ := digestBuckets_char entries
  refine (mem_iff_bLookup _ d _ hnd).mpr ?_
  rw [hlook d, if_neg h]

/-- C4: a singleton size bucket yields no group and no collision without
consulting digests; otherwise every emitted group has at least two members,
all sharing one digest, and is exactly that digest's class; every digest
class with at least two members is emitted; the collision count is the
number of digests whose class is a singleton; entries whose digest fails
appear in no group; and a bucket with at most one surviving (digested)
entry yields no group. -/
theorem C4_size_bucket (entries : List Entry) :
    (entries.length = 1 → getTrueDupes entries = ([], 0)) ∧
    (entries.length ≠ 1 →
      (∀ g ∈ (getTrueDupes entries).1,
        2 ≤ g.length ∧ ∃ d, (∀ e ∈ g, e.digest = some d) ∧
          g = entries.filter (digestIs d)) ∧
      (∀ d, 2 ≤ (entries.filter (digestIs d)).length →
        entries.filter (digestIs d) ∈ (getTrueDupes entries).1) ∧
      (getTrueDupes entries).2 =
        ((entries.filterMap Entry.digest).toFinset.filter
          (fun d => (entries.filter (digestIs d)).length = 1)).card) ∧
    (∀ e ∈ entries, e.digest = none →
      ∀ g ∈ (getTrueDupes entries).1, e ∉ g) ∧
    ((entries.filter fun e => e.digest.isSome).length ≤ 1 →
      (getTrueDupes entries).1 = []) := by
  have hmem_group : ∀ (hne : entries.length ≠ 1),
      ∀ g ∈ (getTrueDupes entries).1,
      2 ≤ g.length ∧ ∃ d, (∀ e ∈ g, e.digest = some d) ∧
        g = entries.filter (digestIs d) := by
    intro hne g hg
    rw [getTrueDupes_of_ne hne] at hg
    simp only [List.mem_filterMap] at hg
    obtain ⟨⟨d, es⟩, hmem, hif⟩ := hg
    by_cases hlen : 1 < es.length
    · rw [if_pos hlen] at hif
      have hes : es = g := Option.some_inj.mp hif
      subst hes
      obtain ⟨hval, -⟩ := mem_digestBuckets_char hmem
      refine ⟨hlen, d, ?_, hval⟩
      intro e he
      rw [hval] at he
      exact digestIs_iff.mp (List.mem_filter.mp he).2
    · rw [if_neg hlen] at hif
      exact absurd hif (by simp)
  refine ⟨?_, fun hne => ⟨hmem_group hne, ?_, ?_⟩, ?_, ?_⟩
  · intro h1
    unfold getTrueDupes
    rw [if_pos h1]
  · intro d hd
    rw [getTrueDupes_of_ne hne]
    simp only [List.mem_filterMap]
    refine ⟨(d, entries.filter (digestIs d)), class_mem_digestBuckets ?_, ?_⟩
    · intro hnil
      rw [hnil] at hd
      simp at hd
    · rw [if_pos (show 1 < (entries.filter (digestIs d)).length by omega)]
  · rw [getTrueDupes_of_ne hne]
    obtain ⟨hnd, hlook⟩ := digestBuckets_char entries
    simp only
    have step1 : (digestBuckets entries).countP
          (fun p => !(1 < p.2.length)) =
        (digestBuckets entries).countP
          (fun p => (entries.filter (digestIs p.1)).length ≤ 1) := by
      refine List.countP_congr ?_
      intro p hp
      obtain ⟨d, es⟩ := p
      obtain ⟨hval, -⟩ := mem_digestBuckets_char hp
      simp only [hval]
      constructor
      · intro h
        simp only [Bool.not_eq_true', decide_eq_false_iff_not, not_lt] at h
        simpa using h
      · intro h
        simp only [decide_eq_true_eq] at h
        simp only [Bool.not_eq_true', decide_eq_false_iff_not, not_lt]
        exact h
    have step2 : (digestBuckets entries).countP
          (fun p => (entries.filter (digestIs p.1)).length ≤ 1) =
        ((digestBuckets entries).map Prod.fst).countP
          (fun d => (entries.filter (digestIs d)).length ≤ 1) := by
      rw [List.countP_map]
      rfl
    have hkey_ne : ∀ d ∈ (digestBuckets entries).map Prod.fst,
        entries.filter (digestIs d) ≠ [] := by
      intro d hd hnil
      have h1 : bLookup (digestBuckets entries) d = none := by
        rw [hlook d, if_pos hnil]
      exact (bLookup_eq_none_iff _ d).mp h1 hd
    have step3 : ((digestBuckets entries).map Prod.fst).countP
          (fun d => (entries.filter (digestIs d)).length ≤ 1) =
        ((digestBuckets entries).map Prod.fst).countP
          (fun d => (entries.filter (digestIs d)).length = 1) := by
      refine List.countP_congr ?_
      intro d hd
      have hne2 := hkey_ne d hd
      have hpos : 0 < (entries.filter (digestIs d)).length :=
        List.length_pos.mpr hne2
      simp only [decide_eq_true_eq]
      omega
    have step4 : ((digestBuckets entries).map Prod.fst).countP
          (fun d => (entries.filter (digestIs d)).length = 1) =
        (((digestBuckets entries).map Prod.fst).filter
          (fun d => (entries.filter (digestIs d)).length = 1)).length :=
      List.countP_eq_length_filter _ _
    have hndf : (((digestBuckets entries).map Prod.fst).filter
        (fun d => (entries.filter (digestIs d)).length = 1)).Nodup :=
      hnd.filter _
    have step5 : (((digestBuckets entries).map Prod.fst).filter
          (fun d => (entries.filter (digestIs d)).length = 1)).length =
        (((digestBuckets entries).map Prod.fst).filter
          (fun d => (entries.filter (digestIs d)).length = 1)).toFinset.card :=
      (List.toFinset_card_of_nodup hndf).symm
    have hsets : (((digestBuckets entries).map Prod.fst).filter
          (fun d => (entries.filter (digestIs d)).length = 1)).toFinset =
        (entries.filterMap Entry.digest).toFinset.filter
          (fun d => (entries.filter (digestIs d)).length = 1) := by
      ext d
      simp only [List.mem_toFinset, List.mem_filter, Finset.mem_filter,
        List.mem_filterMap, decide_eq_true_eq]
      constructor
      · rintro ⟨hd, hlen1⟩
        have hne2 := hkey_ne d hd
        have hex : ∃ e ∈ entries, digestIs d e = true := by
          by_contra hall
          push_neg at hall
          exact hne2 (List.filter_eq_nil_iff.mpr (by
            intro a ha
            simp [hall a ha]))
        obtain ⟨e, he, hde⟩ := hex
        exact ⟨⟨e, he, digestIs_iff.mp hde⟩, hlen1⟩
      · rintro ⟨⟨e, he, hde⟩, hlen1⟩
        refine ⟨?_, hlen1⟩
        have hne2 : entries.filter (digestIs d) ≠ [] := by
          intro hnil
          have := List.filter_eq_nil_iff.mp hnil e he
          rw [digestIs_iff] at this
          exact this hde
        have h1 : bLookup (digestBuckets entries) d ≠ none := by
          rw [hlook d, if_neg hne2]
          simp
        by_contra hd
        exact h1 ((bLookup_eq_none_iff _ d).mpr hd)
    rw [step1, step2, step3, step4, step5, hsets]
  · intro e he hdig g hg hmem
    by_cases hne : entries.length = 1
    · unfold getTrueDupes at hg
      rw [if_pos hne] at hg
      exact absurd hg (List.not_mem_nil g)
    · obtain ⟨-, d, hall, -⟩ := hmem_group hne g hg
      rw [hall e hmem] at hdig
      exact absurd hdig (by simp)
  · intro hsurv
    by_cases hne : entries.length = 1
    · unfold getTrueDupes
      rw [if_pos hne]
    · rw [List.eq_nil_iff_forall_not_mem]
      intro g hg
      obtain ⟨hlen, d, hall, hval⟩ := hmem_group hne g hg
      have hflt : entries.filter (digestIs d) =
          (entries.filter (fun e => e.digest.isSome)).filter (digestIs d) := by
        rw [List.filter_filter]
        refine (List.filter_congr ?_).symm
        intro e he
        cases hdig : e.digest with
        | none =>
          unfold digestIs
          rw [hdig]
          rfl
        | some d0 =>
          unfold digestIs
          rw [hdig]
          simp
      have hle : (entries.filter (digestIs d)).length ≤
          (entries.filter (fun e => e.digest.isSome)).length := by
        rw [hflt]
        exact List.length_filter_le _ _
      rw [hval] at hlen
      omega

/-- A concrete size bucket: two members share digest 1, one member has the
coincidental unique digest 2, one member's digest computation fails. -/
def c4entries : List Entry :=
  [⟨"r/a", 1, some ⟨some 1, some 1⟩, some 1⟩,
   ⟨"r/b", 2, some ⟨some 2, some 2⟩, some 1⟩,
   ⟨"r/c", 3, some ⟨some 3, some 3⟩, some 2⟩,
   ⟨"r/d", 4, some ⟨some 4, some 4⟩, none⟩]

/-- C4 witness: the theorem applied at the concrete bucket (and at a
singleton bucket). -/
theorem C4_size_bucket_witness :
    (([⟨"r/a", 1, some ⟨some 1, some 1⟩, some 1⟩] : List Entry).length = 1 ∧
      getTrueDupes [⟨"r/a", 1, some ⟨some 1, some 1⟩, some 1⟩] = ([], 0)) ∧
    (c4entries.length ≠ 1 ∧
      (2 ≤ (c4entries.filter (digestIs 1)).length ∧
        c4entries.filter (digestIs 1) ∈ (getTrueDupes c4entries).1) ∧
      (getTrueDupes c4entries).2 =
        ((c4entries.filterMap Entry.digest).toFinset.filter
          (fun d => (c4entries.filter (digestIs d)).length = 1)).card) :=
  ⟨⟨by decide, (C4_size_bucket _).1 (by decide)⟩,
   ⟨by decide,
    ⟨by decide,
      ((C4_size_bucket c4entries).2.1 (by decide)).2.1 1 (by decide)⟩,
    ((C4_size_bucket c4entries).2.1 (by decide)).2.2⟩⟩

/-!
## C7: output ordering of the emitted duplicate groups
-/

def c7x : Entry := ⟨"r/x", 1, some ⟨some 1, some 1⟩, some 1⟩

def c7y : Entry := ⟨"r/y", 2, some ⟨some 1, some 1⟩, some 1⟩

def c7u : Entry := ⟨"r/u", 26, some ⟨some 1, some 1⟩, some 2⟩

def c7z : Entry := ⟨"r/z", 3, some ⟨some 1, some 1⟩, some 3⟩

def c7w : Entry := ⟨"r/w", 4, some ⟨some 1, some 1⟩, some 3⟩

/-- Two size buckets: the first yields the group [c7x, c7y] but ends in the
groupless entry c7u whose name sorts last. -/
def c7buckets : List (Nat × List Entry) :=
  [(10, [c7x, c7y, c7u]), (20, [c7z, c7w])]

/-- C7 counterexample: consume sorts the SIZE BUCKETS by their last member,
not the groups by their own last member: with name ordering the bucket
ending in "z" goes last, so its group (last member "b") is emitted after
the group ending in "d" — the emitted groups are not ordered by the key of
each group's last member. -/
theorem C7_counterexample :
    emitGroups (some .name) c7buckets = [[c7z, c7w], [c7x, c7y]] ∧
    ¬ ((emitGroups (some .name) c7buckets).map
        (fun g => g.getLast?.getD default)).Sorted (entryLe .name) := by
  constructor
  · decide
  · decide

theorem pairwise_flatMap_keys (o : FileOrdering)
    (bs : List (Nat × List Entry))
    (hs : bs.Pairwise (bucketLastLe o)) :
    (bs.flatMap fun p => ((getTrueDupes p.2).1).map
      (fun _ => p.2.getLast?.getD default)).Pairwise (entryLe o) := by
  induction bs with
  | nil => simp
  | cons p rest ih =>
    rw [List.pairwise_cons] at hs
    rw [List.flatMap_cons, List.pairwise_append]
    refine ⟨?_, ih hs.2, ?_⟩
    · have hconst : ∀ (gs : List (List Entry)),
          (gs.map fun _ => p.2.getLast?.getD default).Pairwise
            (entryLe o) := by
        intro gs
        induction gs with
        | nil => simp
        | cons g1 gtail ih2 =>
          rw [List.map_cons, List.pairwise_cons]
          refine ⟨?_, ih2⟩
          intro b hb
          rcases List.mem_map.mp hb with ⟨x, -, hx⟩
          rw [← hx]
          exact entryLe_refl o _
      exact hconst _
    · intro a ha b hb
      rcases List.mem_map.mp ha with ⟨x, -, hx⟩
      rcases List.mem_flatMap.mp hb with ⟨q, hq, hbq⟩
      rcases List.mem_map.mp hbq with ⟨x2, -, hx2⟩
      rw [← hx, ← hx2]
      exact hs.1 q hq

/-- C7 amended: the emitted groups come out ordered by the selection key of
the LAST MEMBER OF EACH GROUP'S SIZE BUCKET (the key consume actually
sorts by), for all three orderings. -/
theorem C7_amended_bucket_order (o : FileOrdering)
    (bs : List (Nat × List Entry)) :
    emitGroups (some o) bs = (emitGroupsKeyed (some o) bs).map Prod.snd ∧
    ((emitGroupsKeyed (some o) bs).map Prod.fst).Sorted (entryLe o) := by
  constructor
  · unfold emitGroups emitGroupsKeyed
    rw [List.map_flatMap]
    congr 1
    funext p
    rw [List.map_map]
    simp [Function.comp]
  · unfold emitGroupsKeyed
    rw [List.map_flatMap]
    have hs : (sortBuckets (some o) bs).Pairwise (bucketLastLe o) := by
      unfold sortBuckets
      exact List.sorted_insertionSort _ _
    have hps := pairwise_flatMap_keys o (sortBuckets (some o) bs) hs
    have heq : (fun (p : Nat × List Entry) =>
        (((getTrueDupes p.2).1).map fun g =>
          (p.2.getLast?.getD default, g)).map Prod.fst) =
        fun p => ((getTrueDupes p.2).1).map
          (fun _ => p.2.getLast?.getD default) := by
      funext p
      rw [List.map_map]
      rfl
    rw [heq]
    exact hps

/-!
## C8: deletion
-/

theorem mapWithMetadata_map_snd (files : List Entry) :
    (mapWithMetadata files).map Prod.snd =
      files.filter fun e => e.metadata.isSome := by
  induction files with
  | nil => rfl
  | cons e rest ih =>
    cases hm : e.metadata with
    | none => simpa [mapWithMetadata, List.filterMap_cons, hm,
        List.filter_cons] using ih
    | some m => simpa [mapWithMetadata, List.filterMap_cons, hm,
        List.filter_cons] using ih

/-- What the successful select outcomes look like. -/
theorem select_ok_shape {o : FileOrdering} {k : Keep} {files : List Entry}
    {s : Entry} {d : List Entry} (hsel : select o k files = .ok s d) :
    (k = .first → sortedEntries o files = s :: d) ∧
    (k = .last → sortedEntries o files = d ++ [s]) := by
  have hts : timestampsOk o (mapWithMetadata files) = true := by
    by_contra hts
    rw [Bool.not_eq_true] at hts
    have : select o k files = .aborted := by
      unfold select
      simp [hts]
    rw [this] at hsel
    exact absurd hsel (by simp)
  cases k with
  | first =>
    refine ⟨fun _ => ?_, fun hk => (by cases hk)⟩
    rw [select_first_eq o files hts] at hsel
    cases hL : sortedEntries o files with
    | nil =>
      rw [hL] at hsel
      exact absurd hsel (by simp)
    | cons a l =>
      rw [hL] at hsel
      simp only [SelOutcome.ok.injEq] at hsel
      rw [hsel.1, hsel.2]
  | last =>
    refine ⟨fun hk => (by cases hk), fun _ => ?_⟩
    rw [select_last_eq o files hts] at hsel
    cases hL : (sortedEntries o files).getLast? with
    | none =>
      rw [hL] at hsel
      exact absurd hsel (by simp)
    | some a =>
      rw [hL] at hsel
      simp only [SelOutcome.ok.injEq] at hsel
      have hne : sortedEntries o files ≠ [] := by
        intro hnil
        rw [hnil] at hL
        exact absurd hL (by simp)
      have hsplit := List.dropLast_append_getLast hne
      have ha : a = (sortedEntries o files).getLast hne := by
        rw [List.getLast?_eq_getLast _ hne] at hL
        exact (Option.some_inj.mp hL).symm
      rw [← hsel.2, ← hsel.1, ha]
      exact hsplit.symm

/-- The duplicate paths returned by a successful select on distinct-path
files are distinct and never include the source's path. -/
theorem select_ok_paths {o : FileOrdering} {k : Keep} {files : List Entry}
    {s : Entry} {d : List Entry} (hsel : select o k files = .ok s d)
    (hpaths : (files.map Entry.path).Nodup) :
    (d.map Entry.path).Nodup ∧ s.path ∉ d.map Entry.path := by
  have hsub : ((sortedEntries o files).map Entry.path).Nodup := by
    have h1 : (mapWithMetadata files).map Prod.snd =
        files.filter fun e => e.metadata.isSome := mapWithMetadata_map_snd files
    have h2 : ((mapWithMetadata files).map Prod.snd).Sublist files := by
      rw [h1]
      exact List.filter_sublist files
    have h3 : (((mapWithMetadata files).map Prod.snd).map Entry.path).Nodup :=
      hpaths.sublist (h2.map Entry.path)
    have h4 : (sortedEntries o files).Perm
        ((mapWithMetadata files).map Prod.snd) :=
      (List.perm_insertionSort _ _).map Prod.snd
    exact ((h4.map Entry.path).nodup_iff).mpr h3
  obtain ⟨hfst, hlst⟩ := select_ok_shape hsel
  cases k with
  | first =>
    rw [hfst rfl] at hsub
    simp only [List.map_cons, List.nodup_cons] at hsub
    exact ⟨hsub.2, hsub.1⟩
  | last =>
    rw [hlst rfl] at hsub
    rw [List.map_append, List.nodup_append] at hsub
    refine ⟨hsub.1, fun hmem => ?_⟩
    exact hsub.2.2 hmem (List.mem_singleton_self _)

/-- Full characterization of the deletion loop. -/
theorem deleteFiles_char (dups : List String) :
    ∀ fs : FS, dups.Nodup → fs.present.Nodup →
      (∀ p, p ∈ (deleteFiles dups fs).1.present ↔
        p ∈ fs.present ∧ (p ∉ dups ∨ p ∈ fs.failing)) ∧
      (deleteFiles dups fs).1.failing = fs.failing ∧
      (deleteFiles dups fs).2 = dups.filterMap (fun p =>
        if p ∈ fs.present then
          if p ∈ fs.failing then some (p, RemoveError.accessDenied) else none
        else some (p, RemoveError.notFound)) := by
  induction dups with
  | nil =>
    intro fs _ _
    exact ⟨fun p => by simp [deleteFiles], rfl, rfl⟩
  | cons q rest ih =>
    intro fs hnd hfs
    simp only [List.nodup_cons] at hnd
    by_cases hq : q ∈ fs.present
    · by_cases hfail : q ∈ fs.failing
      · have hrm : removeFile fs q = (fs, some .accessDenied) := by
          unfold removeFile
          rw [if_pos hq, if_pos hfail]
        have hdel : deleteFiles (q :: rest) fs =
            ((deleteFiles rest fs).1,
              (q, RemoveError.accessDenied) :: (deleteFiles rest fs).2) := by
          simp only [deleteFiles, hrm]
        obtain ⟨ih1, ih2, ih3⟩ := ih fs hnd.2 hfs
        rw [hdel]
        refine ⟨fun p => ?_, ih2, ?_⟩
        · rw [ih1 p]
          constructor
          · rintro ⟨hp, h2 | h2⟩
            · by_cases hpq : p = q
              · exact ⟨hp, Or.inr (hpq ▸ hfail)⟩
              · exact ⟨hp, Or.inl (by simp [hpq, h2])⟩
            · exact ⟨hp, Or.inr h2⟩
          · rintro ⟨hp, h2 | h2⟩
            · refine ⟨hp, Or.inl fun hmem => h2 (List.mem_cons_of_mem _ hmem)⟩
            · exact ⟨hp, Or.inr h2⟩
        · rw [List.filterMap_cons]
          simp only [if_pos hq, if_pos hfail]
          rw [ih3]
      · have hrm : removeFile fs q =
            (⟨fs.present.erase q, fs.failing⟩, none) := by
          unfold removeFile
          rw [if_pos hq, if_neg hfail]
        have hdel : deleteFiles (q :: rest) fs =
            deleteFiles rest ⟨fs.present.erase q, fs.failing⟩ := by
          simp only [deleteFiles, hrm]
        obtain ⟨ih1, ih2, ih3⟩ :=
          ih ⟨fs.present.erase q, fs.failing⟩ hnd.2 (hfs.erase q)
        rw [hdel]
        refine ⟨fun p => ?_, ih2, ?_⟩
        · rw [ih1 p]
          rw [hfs.mem_erase_iff]
          constructor
          · rintro ⟨⟨hpq, hp⟩, h2 | h2⟩
            · exact ⟨hp, Or.inl (by simp [hpq, h2])⟩
            · exact ⟨hp, Or.inr h2⟩
          · rintro ⟨hp, h2 | h2⟩
            · have hpq : p ≠ q := fun hh => h2 (hh ▸ List.mem_cons_self q rest)
              exact ⟨⟨hpq, hp⟩, Or.inl fun hmem =>
                h2 (List.mem_cons_of_mem _ hmem)⟩
            · by_cases hpq : p = q
              · subst hpq
                exact absurd h2 hfail
              · exact ⟨⟨hpq, hp⟩, Or.inr h2⟩
        · rw [ih3, List.filterMap_cons]
          simp only [if_pos hq, if_neg hfail]
          refine List.filterMap_congr ?_
          intro p hp
          have hpq : p ≠ q := fun hh => hnd.1 (hh ▸ hp)
          by_cases hp2 : p ∈ fs.present
          · rw [if_pos (hfs.mem_erase_iff.mpr ⟨hpq, hp2⟩), if_pos hp2]
          · rw [if_neg (fun hmem => hp2 (hfs.mem_erase_iff.mp hmem).2),
              if_neg hp2]
    · have hrm : removeFile fs q = (fs, some .notFound) := by
        unfold removeFile
        rw [if_neg hq]
      have hdel : deleteFiles (q :: rest) fs =
          ((deleteFiles rest fs).1,
            (q, RemoveError.notFound) :: (deleteFiles rest fs).2) := by
        simp only [deleteFiles, hrm]
      obtain ⟨ih1, ih2, ih3⟩ := ih fs hnd.2 hfs
      rw [hdel]
      refine ⟨fun p => ?_, ih2, ?_⟩
      · rw [ih1 p]
        constructor
        · rintro ⟨hp, h2 | h2⟩
          · by_cases hpq : p = q
            · subst hpq
              exact absurd hp hq
            · exact ⟨hp, Or.inl (by simp [hpq, h2])⟩
          · exact ⟨hp, Or.inr h2⟩
        · rintro ⟨hp, h2 | h2⟩
          · exact ⟨hp, Or.inl fun hmem => h2 (List.mem_cons_of_mem _ hmem)⟩
          · exact ⟨hp, Or.inr h2⟩
      · rw [List.filterMap_cons]
        simp only [if_neg hq]
        rw [ih3]

/-- C8: for a group of distinct paths, deleting after a successful select
removes exactly the removable files of the duplicates half (everything else,
in particular the source, survives), and each failed removal is logged with
its path and its cause while the loop continues past it. -/
theorem C8_delete_duplicates_only (o : FileOrdering) (k : Keep)
    (files : List Entry) (s : Entry) (d : List Entry) (fs : FS)
    (hpaths : (files.map Entry.path).Nodup)
    (hfs : fs.present.Nodup)
    (hsel : select o k files = .ok s d) :
    (s.path ∈ fs.present →
      s.path ∈ (deleteFiles (d.map Entry.path) fs).1.present) ∧
    (∀ p, p ∈ (deleteFiles (d.map Entry.path) fs).1.present ↔
      p ∈ fs.present ∧ (p ∉ d.map Entry.path ∨ p ∈ fs.failing)) ∧
    (deleteFiles (d.map Entry.path) fs).2 =
      (d.map Entry.path).filterMap (fun p =>
        if p ∈ fs.present then
          if p ∈ fs.failing then some (p, RemoveError.accessDenied) else none
        else some (p, RemoveError.notFound)) := by
  obtain ⟨hdnd, hsrc⟩ := select_ok_paths hsel hpaths
  obtain ⟨h1, _, h3⟩ := deleteFiles_char (d.map Entry.path) fs hdnd hfs
  exact ⟨fun hin => (h1 s.path).mpr ⟨hin, Or.inl hsrc⟩, h1, h3⟩

/-- Concrete three-member group for the C8 witness. -/
def c8files : List Entry :=
  [⟨"r/s", 1, some ⟨some 1, some 1⟩, some 9⟩,
   ⟨"r/t", 2, some ⟨some 2, some 2⟩, some 9⟩,
   ⟨"r/v", 3, some ⟨some 3, some 3⟩, some 9⟩]

/-- A filesystem where one duplicate was already removed externally and the
other is removable. -/
def c8fs : FS := ⟨["r/s", "r/v"], []⟩

/-- C8 witness: the theorem applied to a concrete group (keep=first by
name): the source survives, the removable duplicate is removed, the
missing duplicate is logged with notFound, and the loop went on past it. -/
theorem C8_delete_duplicates_only_witness :
    ((c8files.map Entry.path).Nodup ∧ c8fs.present.Nodup ∧
      select .name .first c8files =
        .ok ⟨"r/s", 1, some ⟨some 1, some 1⟩, some 9⟩
          [⟨"r/t", 2, some ⟨some 2, some 2⟩, some 9⟩,
           ⟨"r/v", 3, some ⟨some 3, some 3⟩, some 9⟩]) ∧
    (("r/s" ∈ c8fs.present →
      "r/s" ∈ (deleteFiles (["r/t", "r/v"] : List String) c8fs).1.present) ∧
      (∀ p, p ∈ (deleteFiles (["r/t", "r/v"] : List String) c8fs).1.present ↔
        p ∈ c8fs.present ∧ (p ∉ (["r/t", "r/v"] : List String) ∨
          p ∈ c8fs.failing)) ∧
      (deleteFiles (["r/t", "r/v"] : List String) c8fs).2 =
        (["r/t", "r/v"] : List String).filterMap (fun p =>
          if p ∈ c8fs.present then
            if p ∈ c8fs.failing then some (p, RemoveError.accessDenied)
            else none
          else some (p, RemoveError.notFound))) :=
  ⟨⟨by decide, by decide, by decide⟩,
    C8_delete_duplicates_only .name .first c8files
      ⟨"r/s", 1, some ⟨some 1, some 1⟩, some 9⟩
      [⟨"r/t", 2, some ⟨some 2, some 2⟩, some 9⟩,
       ⟨"r/v", 3, some ⟨some 3, some 3⟩, some 9⟩]
      c8fs (by decide) (by decide) (by decide)⟩

/-!
## C10: quiet mode and the summary counters
-/

/-- The projection that zeroes the space-saved accumulator. -/
def zeroSpace (t : Tally) : Tally :=
  ⟨t.groups, t.dupes, t.collisions, 0⟩

theorem consumeGroup_quiet (o : FileOrdering) (k : Keep) (size : Nat)
    (tf : Tally) (g : List Entry) :
    consumeGroup true o k size (zeroSpace tf) g =
      (consumeGroup false o k size tf g).map zeroSpace := by
  unfold consumeGroup
  cases select o k g with
  | aborted => rfl
  | ok s d => rfl

theorem consumeGroups_quiet (o : FileOrdering) (k : Keep) (size : Nat)
    (gs : List (List Entry)) :
    ∀ tf : Tally,
      gs.foldlM (consumeGroup true o k size) (zeroSpace tf) =
        (gs.foldlM (consumeGroup false o k size) tf).map zeroSpace := by
  induction gs with
  | nil => intro tf; rfl
  | cons g rest ih =>
    intro tf
    rw [List.foldlM_cons, List.foldlM_cons, consumeGroup_quiet o k size tf g]
    cases hsel : consumeGroup false o k size tf g with
    | none => rfl
    | some tf2 => exact ih tf2

theorem consumeBucket_quiet (o : FileOrdering) (k : Keep) (tf : Tally)
    (b : Nat × List Entry) :
    consumeBucket true o k (zeroSpace tf) b =
      (consumeBucket false o k tf b).map zeroSpace := by
  unfold consumeBucket
  exact consumeGroups_quiet o k b.1 (getTrueDupes b.2).1
    { tf with collisions := tf.collisions + (getTrueDupes b.2).2 }

/-- C10: with quiet set, the space-saved accumulator is never updated, so
the run's final tally reports 0 bytes saved, while the duplicate-group,
duplicate and size-collision counters are exactly those of a non-quiet
run. -/
theorem C10_quiet_zeroes_space (so : Option FileOrdering)
    (o : FileOrdering) (k : Keep) (bs : List (Nat × List Entry)) :
    consumeRun true so o k bs =
      (consumeRun false so o k bs).map zeroSpace := by
  unfold consumeRun
  have main : ∀ (l : List (Nat × List Entry)) (tf : Tally),
      l.foldlM (consumeBucket true o k) (zeroSpace tf) =
        (l.foldlM (consumeBucket false o k) tf).map zeroSpace := by
    intro l
    induction l with
    | nil => intro tf; rfl
    | cons b rest ih =>
      intro tf
      rw [List.foldlM_cons, List.foldlM_cons, consumeBucket_quiet o k tf b]
      cases hb : consumeBucket false o k tf b with
      | none => rfl
      | some tf2 => exact ih tf2
  exact main (sortBuckets so bs) ⟨0, 0, 0, 0⟩

end Dedup
